import Mathlib

/-
Verification of the conc structured-concurrency toolkit.

The repository has two parts:
* package `iter` (src/iter/map.go): `Mapper.Map` and `Mapper.MapErr`,
  bounded-concurrency parallel map built on `Iterator.ForEachIdx`;
* package `conc`: a `WaitGroup` that spawns goroutines, captures the first
  panic, and re-raises it (or returns it) on `Wait` / `WaitSafe`.

Shallow-embedding conventions.  Goroutine scheduling is nondeterministic, so
every operation is parameterized by an explicit completion order: for the
iterator, `ord`, the order in which the per-index body invocations complete
(an arbitrary permutation of the index range); for the wait group, the list
of spawned units is given already arranged in completion order.  Shared
mutable memory is threaded as explicit state.  Go `error` values returned by
a transform are `Option String` (`none` is nil, `some msg` an error with
text `msg`); the aggregated multierror built by `errors.Append` is the list
of appended texts, `[]` standing for a nil error.
-/

namespace Conc

/-- Substring containment on strings: `sub` occurs contiguously in `s`.
Tests of the repository key off substring containment of error texts. -/
def textContains (s sub : String) : Prop :=
  ∃ a b, s.data = a ++ sub.data ++ b

/-- Modelled from the spec: the textual form of the aggregated multierror
built by `errors.Append` (the implementation is outside src/).  The spec
requires only that the combined text include every underlying error text;
we render each appended text on its own line. -/
def errText : List String → String
  | [] => ""
  | e :: rest => e ++ "\n" ++ errText rest

/-- Modelled from the spec: `Iterator[T].ForEachIdx` (its implementation is
outside src/) invokes the body exactly once for every index `i` in
`[0, input.length)`, each invocation receiving `i` and the element at `i`;
invocations complete in an arbitrary order.  `ord` lists the indices in
completion order (a permutation of `List.range input.length`), and the
shared memory the body mutates is threaded as state `σ`. -/
def ForEachIdx (input : List T) (ord : List Nat) (action : Nat → T → σ → σ)
    (init : σ) : σ :=
  ord.foldl
    (fun s i =>
      match input[i]? with
      | some t => action i t s
      | none => s)
    init

/-- Embeds `Mapper.Map` (src/iter/map.go lines 34-40): allocate
`res := make([]R, len(input))` — a slice of zero values — and have the body
of `ForEachIdx` perform the index-addressed write `res[i] = f(t)`. -/
def Mapper.Map [Inhabited R] (input : List T) (f : T → R) (ord : List Nat) :
    List R :=
  ForEachIdx input ord (fun i t res => res.set i (f t))
    (List.replicate input.length default)

/-- Embeds `Mapper.MapErr` (src/iter/map.go lines 57-73): the body performs
`res[i], err = f(t)` (the write to `res[i]` happens whether or not `err` is
nil) and, when `err` is non-nil, appends it to the mutex-guarded aggregate
`errs` in completion order.  State is the pair (res slice, appended error
texts). -/
def Mapper.MapErr [Inhabited R] (input : List T) (f : T → R × Option String)
    (ord : List Nat) : List R × List String :=
  ForEachIdx input ord
    (fun i t s =>
      match f t with
      | (r, some e) => (s.1.set i r, s.2 ++ [e])
      | (r, none) => (s.1.set i r, s.2))
    (List.replicate input.length default, [])

/-- A unit of work spawned on a `WaitGroup` by `Go`: run against the shared
memory `σ`, it updates the memory and either completes normally (`none`) or
panics with a string payload (`some p`).  Side effects performed before a
panic are kept, as in Go. -/
structure Job (σ : Type u) where
  run : σ → σ × Option String

/-- Modelled from the spec: the wrapper `WaitGroup` puts around every
spawned unit converts a panic into a captured failure; the failure's
textual representation contains the original payload's text. -/
def capturedText (payload : String) : String :=
  "recovered panic: " ++ payload

/-- Outcome of `WaitGroup.Wait`: either a normal return or a re-raised
panic carrying the captured failure's text. -/
inductive WaitOutcome where
  | normal : WaitOutcome
  | panicked : String → WaitOutcome
deriving DecidableEq

namespace WaitGroup

/-- Modelled from the spec: the execution of a wave of spawned units (the
`WaitGroup` implementation is outside src/; only its tests are under src/).
Every unit runs to completion regardless of earlier failures — there is no
cancellation — and a panic payload is stored into the single failure slot
only when the slot is still empty (compare-and-set, first completion wins).
`units` is given in completion order; the result is the final shared memory
and the slot. -/
def runAll (units : List (Job σ)) (s : σ) (slot : Option String) :
    σ × Option String :=
  units.foldl
    (fun acc u =>
      let r := u.run acc.1
      (r.1,
        match acc.2 with
        | some p => some p
        | none => r.2))
    (s, slot)

/-- The shared memory after every spawned unit has run to completion. -/
def stateAfter (units : List (Job σ)) (s : σ) : σ :=
  units.foldl (fun st u => (u.run st).1) s

/-- The panic payloads raised during the wave, in completion order. -/
def panics : List (Job σ) → σ → List String
  | [], _ => []
  | u :: rest, s =>
    match u.run s with
    | (s', p) => p.toList ++ panics rest s'

/-- Modelled from the spec: `Wait` blocks until every spawned unit has
finished, then re-raises the captured failure if the slot was set and
otherwise returns normally. -/
def Wait (units : List (Job σ)) (s : σ) : σ × WaitOutcome :=
  ((runAll units s none).1,
    match (runAll units s none).2 with
    | some p => WaitOutcome.panicked (capturedText p)
    | none => WaitOutcome.normal)

/-- Modelled from the spec: `WaitSafe` drains exactly like `Wait` but
returns the captured failure (modelled by its error text) as a value
instead of re-raising; `none` when no unit panicked. -/
def WaitSafe (units : List (Job σ)) (s : σ) : σ × Option String :=
  ((runAll units s none).1, ((runAll units s none).2).map capturedText)

end WaitGroup

/-- A unit of work that increments a shared counter and completes normally;
used by the counter-based scenarios of the tests. -/
def incJob : Job Nat :=
  ⟨fun n => (n + 1, none)⟩

/-- A unit of work that panics with payload `p` without touching the shared
counter. -/
def panicJob (p : String) : Job Nat :=
  ⟨fun n => (n, some p)⟩

end Conc

namespace Conc

/- Helper lemmas about the iterator fold. -/

theorem ForEachIdx_nil (ord : List Nat) (action : Nat → T → σ → σ) (init : σ) :
    ForEachIdx ([] : List T) ord action init = init := by
  induction ord generalizing init with
  | nil => rfl
  | cons j rest ih =>
    show ForEachIdx ([] : List T) rest action init = init
    exact ih init

/-- The slice written by index-addressed writes keeps its length. -/
theorem ForEachIdx_set_length [Inhabited R] (input : List T) (g : Nat → T → R)
    (ord : List Nat) (res₀ : List R) :
    (ForEachIdx input ord (fun i t res => res.set i (g i t)) res₀).length
      = res₀.length := by
  induction ord generalizing res₀ with
  | nil => rfl
  | cons j rest ih =>
    cases h : input[j]? with
    | none =>
      have step : ForEachIdx input (j :: rest) (fun i t res => res.set i (g i t)) res₀
          = ForEachIdx input rest (fun i t res => res.set i (g i t)) res₀ := by
        simp only [ForEachIdx, List.foldl_cons, h]
      rw [step]
      exact ih res₀
    | some t =>
      have step : ForEachIdx input (j :: rest) (fun i t res => res.set i (g i t)) res₀
          = ForEachIdx input rest (fun i t res => res.set i (g i t))
              (res₀.set j (g j t)) := by
        simp only [ForEachIdx, List.foldl_cons, h]
      rw [step, ih (res₀.set j (g j t)), List.length_set]

/-- Pointwise value of the index-addressed write fold: an index that is
scheduled in `ord`, or that already holds its final value, ends up holding
`g i input[i]`. -/
theorem ForEachIdx_set_getElem? [Inhabited R] (input : List T)
    (g : Nat → T → R) (ord : List Nat) (res₀ : List R)
    (hord : ∀ j ∈ ord, j < input.length) (hlen : res₀.length = input.length)
    (i : Nat)
    (hi : (i ∈ ord ∧ i < input.length)
        ∨ res₀[i]? = input[i]?.map (fun t => g i t)) :
    (ForEachIdx input ord (fun i t res => res.set i (g i t)) res₀)[i]?
      = input[i]?.map (fun t => g i t) := by
  induction ord generalizing res₀ with
  | nil =>
    rcases hi with ⟨hmem, _⟩ | hval
    · exact absurd hmem (List.not_mem_nil i)
    · exact hval
  | cons j rest ih =>
    have hj : j < input.length := hord j (List.mem_cons_self j rest)
    have ht : input[j]? = some input[j] := List.getElem?_eq_getElem hj
    have step : ForEachIdx input (j :: rest) (fun i t res => res.set i (g i t)) res₀
        = ForEachIdx input rest (fun i t res => res.set i (g i t))
            (res₀.set j (g j input[j])) := by
      simp only [ForEachIdx, List.foldl_cons, ht]
    rw [step]
    have hlen' : (res₀.set j (g j input[j])).length = input.length := by
      simpa [List.length_set] using hlen
    refine ih (res₀.set j (g j input[j]))
      (fun k hk => hord k (List.mem_cons_of_mem j hk)) hlen' ?_
    by_cases hij : i = j
    · subst hij
      right
      rw [List.getElem?_set_self (by omega), ht]
      rfl
    · rcases hi with ⟨hmem, hilt⟩ | hval
      · rcases List.mem_cons.mp hmem with rfl | hmem'
        · exact absurd rfl hij
        · exact Or.inl ⟨hmem', hilt⟩
      · right
        rw [List.getElem?_set_ne (fun h => hij h.symm)]
        exact hval

/-- Main lemma for `Map`: for every completion order that is a permutation
of the index range, the index-addressed write fold produces exactly the
sequential map. -/
theorem ForEachIdx_set_eq_map [Inhabited R] (input : List T) (g : Nat → T → R)
    (ord : List Nat) (hperm : ord.Perm (List.range input.length)) :
    ForEachIdx input ord (fun i t res => res.set i (g i t))
        (List.replicate input.length default)
      = input.mapIdx (fun i t => g i t) := by
  have hord : ∀ j ∈ ord, j < input.length := fun j hj =>
    List.mem_range.mp (hperm.mem_iff.mp hj)
  apply List.ext_getElem?
  intro i
  by_cases hi : i < input.length
  · have hmem : i ∈ ord := hperm.mem_iff.mpr (List.mem_range.mpr hi)
    rw [ForEachIdx_set_getElem? input g ord _ hord
      (List.length_replicate ..) i (Or.inl ⟨hmem, hi⟩)]
    rw [List.getElem?_mapIdx, List.getElem?_eq_getElem hi]
  · have h1 : (ForEachIdx input ord (fun i t res => res.set i (g i t))
        (List.replicate input.length default)).length = input.length := by
      rw [ForEachIdx_set_length, List.length_replicate]
    have h2 : (input.mapIdx fun i t => g i t).length = input.length :=
      List.length_mapIdx ..
    rw [List.getElem?_eq_none (by omega), List.getElem?_eq_none (by omega)]

/-- The index-constant instance of `mapIdx` is `map`. -/
theorem mapIdx_const (input : List T) (f : T → R) :
    input.mapIdx (fun _ t => f t) = input.map f := by
  apply List.ext_getElem?
  intro i
  rw [List.getElem?_mapIdx, List.getElem?_map]

/-- Whatever the completion order, as long as it schedules every index
exactly once, `Mapper.Map` computes the sequential map. -/
theorem Map_eq_map [Inhabited R] (input : List T) (f : T → R) (ord : List Nat)
    (hperm : ord.Perm (List.range input.length)) :
    Mapper.Map input f ord = input.map f := by
  have h := ForEachIdx_set_eq_map input (fun _ t => f t) ord hperm
  rw [Mapper.Map, h, mapIdx_const]

/-- The values component of the `MapErr` fold is the plain index-addressed
write fold of the first components of `f`. -/
theorem MapErr_state_fst [Inhabited R] (input : List T)
    (f : T → R × Option String) (ord : List Nat) (s : List R × List String) :
    (ForEachIdx input ord
      (fun i t s =>
        match f t with
        | (r, some e) => (s.1.set i r, s.2 ++ [e])
        | (r, none) => (s.1.set i r, s.2)) s).1
      = ForEachIdx input ord (fun i t res => res.set i ((f t).1)) s.1 := by
  induction ord generalizing s with
  | nil => rfl
  | cons j rest ih =>
    cases h : input[j]? with
    | none =>
      have stepl : ForEachIdx input (j :: rest)
          (fun i t s =>
            match f t with
            | (r, some e) => (s.1.set i r, s.2 ++ [e])
            | (r, none) => (s.1.set i r, s.2)) s
          = ForEachIdx input rest
            (fun i t s =>
              match f t with
              | (r, some e) => (s.1.set i r, s.2 ++ [e])
              | (r, none) => (s.1.set i r, s.2)) s := by
        simp only [ForEachIdx, List.foldl_cons, h]
      have stepr : ForEachIdx input (j :: rest)
          (fun i t res => res.set i ((f t).1)) s.1
          = ForEachIdx input rest (fun i t res => res.set i ((f t).1)) s.1 := by
        simp only [ForEachIdx, List.foldl_cons, h]
      rw [stepl, stepr, ih s]
    | some t =>
      have key : (match f t with
          | (r, some e) => (s.1.set j r, s.2 ++ [e])
          | (r, none) => (s.1.set j r, s.2) : List R × List String).1
          = s.1.set j ((f t).1) := by
        rcases hft : f t with ⟨r, err⟩
        cases err <;> simp
      have stepl : ForEachIdx input (j :: rest)
          (fun i t s =>
            match f t with
            | (r, some e) => (s.1.set i r, s.2 ++ [e])
            | (r, none) => (s.1.set i r, s.2)) s
          = ForEachIdx input rest
            (fun i t s =>
              match f t with
              | (r, some e) => (s.1.set i r, s.2 ++ [e])
              | (r, none) => (s.1.set i r, s.2))
            (match f t with
              | (r, some e) => (s.1.set j r, s.2 ++ [e])
              | (r, none) => (s.1.set j r, s.2)) := by
        simp only [ForEachIdx, List.foldl_cons, h]
      have stepr : ForEachIdx input (j :: rest)
          (fun i t res => res.set i ((f t).1)) s.1
          = ForEachIdx input rest (fun i t res => res.set i ((f t).1))
            (s.1.set j ((f t).1)) := by
        simp only [ForEachIdx, List.foldl_cons, h]
      rw [stepl, stepr, ih, key]

/-- The error component of the `MapErr` fold collects, in completion order,
exactly the non-nil errors returned by `f` at the scheduled indices. -/
theorem MapErr_state_snd [Inhabited R] (input : List T)
    (f : T → R × Option String) (ord : List Nat) (s : List R × List String) :
    (ForEachIdx input ord
      (fun i t s =>
        match f t with
        | (r, some e) => (s.1.set i r, s.2 ++ [e])
        | (r, none) => (s.1.set i r, s.2)) s).2
      = s.2 ++ ord.filterMap (fun i => input[i]?.bind (fun t => (f t).2)) := by
  induction ord generalizing s with
  | nil => simp [ForEachIdx]
  | cons j rest ih =>
    cases h : input[j]? with
    | none =>
      have step : ForEachIdx input (j :: rest)
          (fun i t s =>
            match f t with
            | (r, some e) => (s.1.set i r, s.2 ++ [e])
            | (r, none) => (s.1.set i r, s.2)) s
          = ForEachIdx input rest
            (fun i t s =>
              match f t with
              | (r, some e) => (s.1.set i r, s.2 ++ [e])
              | (r, none) => (s.1.set i r, s.2)) s := by
        simp only [ForEachIdx, List.foldl_cons, h]
      rw [step, ih s, List.filterMap_cons]
      simp [h]
    | some t =>
      have step : ForEachIdx input (j :: rest)
          (fun i t s =>
            match f t with
            | (r, some e) => (s.1.set i r, s.2 ++ [e])
            | (r, none) => (s.1.set i r, s.2)) s
          = ForEachIdx input rest
            (fun i t s =>
              match f t with
              | (r, some e) => (s.1.set i r, s.2 ++ [e])
              | (r, none) => (s.1.set i r, s.2))
            (match f t with
              | (r, some e) => (s.1.set j r, s.2 ++ [e])
              | (r, none) => (s.1.set j r, s.2)) := by
        simp only [ForEachIdx, List.foldl_cons, h]
      rw [step, ih, List.filterMap_cons, h]
      rcases hft : f t with ⟨r, err⟩
      cases err with
      | none => simp [hft]
      | some e => simp [hft, List.append_assoc]

/-- The aggregated error of `MapErr`, as a list of texts in completion
order. -/
theorem MapErr_snd_eq [Inhabited R] (input : List T)
    (f : T → R × Option String) (ord : List Nat) :
    (Mapper.MapErr input f ord).2
      = ord.filterMap (fun i => input[i]?.bind (fun t => (f t).2)) := by
  rw [Mapper.MapErr]
  rw [MapErr_state_snd input f ord (List.replicate input.length default, [])]
  rfl

/-- The values returned by `MapErr`, for any completion order scheduling
every index exactly once. -/
theorem MapErr_fst_eq [Inhabited R] (input : List T)
    (f : T → R × Option String) (ord : List Nat)
    (hperm : ord.Perm (List.range input.length)) :
    (Mapper.MapErr input f ord).1 = input.map (fun t => (f t).1) := by
  rw [Mapper.MapErr]
  rw [MapErr_state_fst input f ord (List.replicate input.length default, [])]
  have h := ForEachIdx_set_eq_map input (fun _ t => (f t).1) ord hperm
  rw [h, mapIdx_const]

/-- Every text appended to the aggregate occurs contiguously in the
rendered multierror text. -/
theorem errText_contains (l : List String) (e : String) (he : e ∈ l) :
    textContains (errText l) e := by
  induction l with
  | nil => exact absurd he (List.not_mem_nil e)
  | cons a rest ih =>
    rcases List.mem_cons.mp he with rfl | hmem
    · exact ⟨[], "\n".data ++ (errText rest).data, by
        simp [errText, String.data_append]⟩
    · obtain ⟨x, y, hxy⟩ := ih hmem
      exact ⟨a.data ++ "\n".data ++ x, y, by
        simp [errText, String.data_append, hxy]⟩

/- Helper lemmas about the wait group. -/

theorem runAll_cons (u : Job σ) (rest : List (Job σ)) (s : σ)
    (slot : Option String) :
    WaitGroup.runAll (u :: rest) s slot
      = WaitGroup.runAll rest (u.run s).1
          (match slot with
            | some p => some p
            | none => (u.run s).2) := rfl

/-- The final shared memory of a wave does not depend on the failure slot:
every unit runs to completion. -/
theorem runAll_fst (units : List (Job σ)) (s : σ) (slot : Option String) :
    (WaitGroup.runAll units s slot).1 = WaitGroup.stateAfter units s := by
  induction units generalizing s slot with
  | nil => rfl
  | cons u rest ih =>
    rw [runAll_cons]
    exact ih (u.run s).1 _

/-- A slot that is already set survives any further completions, panicking
or not. -/
theorem runAll_slot_set (units : List (Job σ)) (s : σ) (p : String) :
    (WaitGroup.runAll units s (some p)).2 = some p := by
  induction units generalizing s with
  | nil => rfl
  | cons u rest ih =>
    rw [runAll_cons]
    exact ih (u.run s).1

/-- Starting from an empty slot, the slot ends up holding exactly the first
panic payload in completion order. -/
theorem runAll_slot_none (units : List (Job σ)) (s : σ) :
    (WaitGroup.runAll units s none).2 = (WaitGroup.panics units s).head? := by
  induction units generalizing s with
  | nil => rfl
  | cons u rest ih =>
    rw [runAll_cons]
    rcases hu : u.run s with ⟨s', p⟩
    cases p with
    | none =>
      have hpan : WaitGroup.panics (u :: rest) s = WaitGroup.panics rest s' := by
        simp [WaitGroup.panics, hu]
      rw [hpan]
      exact ih s'
    | some q =>
      have hpan : WaitGroup.panics (u :: rest) s = q :: WaitGroup.panics rest s' := by
        simp [WaitGroup.panics, hu]
      rw [hpan]
      exact runAll_slot_set rest s' q

/-- A wave of units that all increment the shared counter raises no panic
and advances the counter by the number of units. -/
theorem incJob_wave (units : List (Job Nat)) (s : Nat)
    (h : ∀ u ∈ units, u = incJob) :
    WaitGroup.panics units s = [] ∧
      WaitGroup.stateAfter units s = s + units.length := by
  induction units generalizing s with
  | nil => exact ⟨rfl, rfl⟩
  | cons u rest ih =>
    have hu : u = incJob := h u (List.mem_cons_self ..)
    subst hu
    have hr := ih (s + 1) (fun v hv => h v (List.mem_cons_of_mem _ hv))
    refine ⟨?_, ?_⟩
    · show WaitGroup.panics (incJob :: rest) s = []
      simp [WaitGroup.panics, incJob, hr.1]
    · show WaitGroup.stateAfter rest (s + 1) = s + (rest.length + 1)
      rw [hr.2]
      omega

/- Claim theorems. -/

/-- C1: for every input slice of length N and every transform f, Map returns
a slice of length N whose i-th element equals f applied to the i-th input
element, for every index i in [0, N); the output is ordered by input index,
independent of completion order (the completion order `ord` is universally
quantified). -/
theorem map_ordered_pointwise [Inhabited R] (input : List T) (f : T → R)
    (ord : List Nat) (hperm : ord.Perm (List.range input.length)) :
    (Mapper.Map input f ord).length = input.length
      ∧ ∀ i, i < input.length → (Mapper.Map input f ord)[i]? = input[i]?.map f := by
  rw [Map_eq_map input f ord hperm]
  exact ⟨List.length_map .., fun i _ => List.getElem?_map ..⟩

theorem map_ordered_pointwise_witness :
    ([2, 0, 1] : List Nat).Perm (List.range 3)
      ∧ (Mapper.Map ([10, 20, 30] : List Nat) (fun x => x + 1) [2, 0, 1]).length = 3
      ∧ (Mapper.Map ([10, 20, 30] : List Nat) (fun x => x + 1) [2, 0, 1])[1]?
          = some 21 := by
  have hperm : ([2, 0, 1] : List Nat).Perm (List.range 3) := by decide
  refine ⟨hperm,
    (map_ordered_pointwise [10, 20, 30] (fun x => x + 1) [2, 0, 1] hperm).1, ?_⟩
  rw [(map_ordered_pointwise [10, 20, 30] (fun x => x + 1) [2, 0, 1] hperm).2 1
    (by decide)]
  rfl

/-- C2: for every input of length N where exactly k elements' transforms
return a non-nil error, MapErr returns a non-nil combined error iff k is
positive; when k is zero the returned error is nil. -/
theorem mapErr_error_iff_failures [Inhabited R] (input : List T)
    (f : T → R × Option String) (ord : List Nat)
    (hperm : ord.Perm (List.range input.length)) :
    ((Mapper.MapErr input f ord).2 ≠ [] ↔
      0 < ((List.range input.length).filter
        (fun i => (input[i]?.bind (fun t => (f t).2)).isSome)).length)
      ∧ (((List.range input.length).filter
          (fun i => (input[i]?.bind (fun t => (f t).2)).isSome)).length = 0 →
        (Mapper.MapErr input f ord).2 = []) := by
  have E : (Mapper.MapErr input f ord).2 = [] ↔
      ((List.range input.length).filter
        (fun i => (input[i]?.bind (fun t => (f t).2)).isSome)).length = 0 := by
    rw [MapErr_snd_eq]
    constructor
    · intro hnil
      rw [List.length_eq_zero, List.filter_eq_nil_iff]
      intro i hi
      have hmem : i ∈ ord := hperm.mem_iff.mpr hi
      have hnone := List.filterMap_eq_nil_iff.mp hnil i hmem
      simp only at hnone
      simp [hnone]
    · intro hk
      have hfil := List.filter_eq_nil_iff.mp (List.length_eq_zero.mp hk)
      apply List.filterMap_eq_nil_iff.mpr
      intro i hi
      have hrange : i ∈ List.range input.length := hperm.mem_iff.mp hi
      have hns := hfil i hrange
      simpa [Option.not_isSome_iff_eq_none] using hns
  refine ⟨?_, fun hk => E.mpr hk⟩
  rw [Nat.pos_iff_ne_zero]
  exact not_congr E

theorem mapErr_error_iff_failures_witness :
    ([1, 2, 0] : List Nat).Perm (List.range 3)
      ∧ (Mapper.MapErr ([1, 2, 3] : List Nat)
          (fun x => (x * 2, if x = 2 then some "boom" else none)) [1, 2, 0]).2
          ≠ [] :=
  ⟨by decide,
   ((mapErr_error_iff_failures [1, 2, 3]
      (fun x => (x * 2, if x = 2 then some "boom" else none)) [1, 2, 0]
      (by decide)).1).mpr (by decide)⟩

/-- C3: in MapErr, for every index i the output slice at position i is the
value returned by the transform for that element, regardless of any errors
reported by that or other elements, and the values slice has the same
length as the input. -/
theorem mapErr_values_complete [Inhabited R] (input : List T)
    (f : T → R × Option String) (ord : List Nat)
    (hperm : ord.Perm (List.range input.length)) :
    (Mapper.MapErr input f ord).1.length = input.length
      ∧ ∀ i, i < input.length →
          (Mapper.MapErr input f ord).1[i]? = input[i]?.map (fun t => (f t).1) := by
  rw [MapErr_fst_eq input f ord hperm]
  exact ⟨List.length_map .., fun i _ => List.getElem?_map ..⟩

theorem mapErr_values_complete_witness :
    ([2, 1, 0] : List Nat).Perm (List.range 3)
      ∧ (Mapper.MapErr ([1, 2, 3] : List Nat)
          (fun x => (x * 2, if x = 2 then some "boom" else none)) [2, 1, 0]).1.length
          = 3
      ∧ (Mapper.MapErr ([1, 2, 3] : List Nat)
          (fun x => (x * 2, if x = 2 then some "boom" else none)) [2, 1, 0]).1[1]?
          = some 4 := by
  have hperm : ([2, 1, 0] : List Nat).Perm (List.range 3) := by decide
  refine ⟨hperm,
    (mapErr_values_complete [1, 2, 3]
      (fun x => (x * 2, if x = 2 then some "boom" else none)) [2, 1, 0] hperm).1, ?_⟩
  rw [(mapErr_values_complete [1, 2, 3]
      (fun x => (x * 2, if x = 2 then some "boom" else none)) [2, 1, 0] hperm).2 1
    (by decide)]
  rfl

/-- C4: if one or more units of a wave panic, Wait does not return normally,
yet only after every spawned unit has finished: the final shared memory is
the one obtained by running every unit to completion, so the side effects
of all non-panicking units are observable after Wait raises. -/
theorem wait_raises_after_drain (units : List (Job σ)) (s : σ)
    (h : WaitGroup.panics units s ≠ []) :
    (WaitGroup.Wait units s).2 ≠ WaitOutcome.normal
      ∧ (WaitGroup.Wait units s).1 = WaitGroup.stateAfter units s := by
  refine ⟨?_, runAll_fst units s none⟩
  obtain ⟨q, rest, hq⟩ := List.exists_cons_of_ne_nil h
  have hslot : (WaitGroup.runAll units s none).2 = some q := by
    rw [runAll_slot_none, hq]
    rfl
  show (match (WaitGroup.runAll units s none).2 with
      | some p => WaitOutcome.panicked (capturedText p)
      | none => WaitOutcome.normal) ≠ WaitOutcome.normal
  rw [hslot]
  simp

theorem wait_raises_after_drain_witness :
    WaitGroup.panics [incJob, panicJob "super bad thing", incJob] (0 : Nat) ≠ []
      ∧ ((WaitGroup.Wait [incJob, panicJob "super bad thing", incJob] (0 : Nat)).2
            ≠ WaitOutcome.normal
          ∧ (WaitGroup.Wait [incJob, panicJob "super bad thing", incJob] (0 : Nat)).1
            = WaitGroup.stateAfter [incJob, panicJob "super bad thing", incJob]
                (0 : Nat))
      ∧ (WaitGroup.Wait [incJob, panicJob "super bad thing", incJob] (0 : Nat)).1
          = 2 :=
  ⟨by decide,
   wait_raises_after_drain [incJob, panicJob "super bad thing", incJob] 0 (by decide),
   by decide⟩

/-- C5: the single failure slot, once set by the first captured panic, is
never overwritten by any later completion, panicking or not and whenever
spawned; starting empty, the slot ends up holding exactly the first panic
payload in completion order, so Wait raises exactly one captured fault. -/
theorem failure_slot_first_wins (units : List (Job σ)) (s : σ) (p : String) :
    (WaitGroup.runAll units s (some p)).2 = some p
      ∧ (WaitGroup.runAll units s none).2 = (WaitGroup.panics units s).head? :=
  ⟨runAll_slot_set units s p, runAll_slot_none units s⟩

/-- C6: WaitSafe drains exactly like Wait (same final shared memory) but
never re-raises: if no unit panicked it returns no failure value, and if
some unit panicked it returns a failure value that is the captured failure
of one of the panicking units, whose textual representation contains that
panic payload's text. -/
theorem waitSafe_returns_failure (units : List (Job σ)) (s : σ) :
    (WaitGroup.WaitSafe units s).1 = (WaitGroup.Wait units s).1
      ∧ (WaitGroup.panics units s = [] → (WaitGroup.WaitSafe units s).2 = none)
      ∧ (WaitGroup.panics units s ≠ [] →
          ∃ q ∈ WaitGroup.panics units s,
            (WaitGroup.WaitSafe units s).2 = some (capturedText q)
              ∧ textContains (capturedText q) q) := by
  refine ⟨rfl, ?_, ?_⟩
  · intro h0
    show ((WaitGroup.runAll units s none).2).map capturedText = none
    rw [runAll_slot_none, h0]
    rfl
  · intro h
    obtain ⟨q, rest, hq⟩ := List.exists_cons_of_ne_nil h
    refine ⟨q, by rw [hq]; exact List.mem_cons_self .., ?_, ?_⟩
    · show ((WaitGroup.runAll units s none).2).map capturedText
          = some (capturedText q)
      rw [runAll_slot_none, hq]
      rfl
    · exact ⟨"recovered panic: ".data, [], by
        simp [capturedText, String.data_append]⟩

theorem waitSafe_returns_failure_witness :
    WaitGroup.panics [panicJob "super bad thing"] (0 : Nat) ≠ []
      ∧ (WaitGroup.WaitSafe [panicJob "super bad thing"] (0 : Nat)).2
          = some (capturedText "super bad thing") := by
  have h : WaitGroup.panics [panicJob "super bad thing"] (0 : Nat) ≠ [] := by decide
  refine ⟨h, ?_⟩
  obtain ⟨q, hmem, heq, hcont⟩ :=
    (waitSafe_returns_failure [panicJob "super bad thing"] (0 : Nat)).2.2 h
  have hpan : WaitGroup.panics [panicJob "super bad thing"] (0 : Nat)
      = ["super bad thing"] := rfl
  rw [hpan] at hmem
  have hqe : q = "super bad thing" := List.mem_singleton.mp hmem
  rw [heq, hqe]

/-- C7: when one or more elements' transforms report errors in MapErr, the
textual form of the returned combined error contains the text of every
reported element error as a contiguous substring. -/
theorem mapErr_text_contains_each [Inhabited R] (input : List T)
    (f : T → R × Option String) (ord : List Nat)
    (hperm : ord.Perm (List.range input.length))
    (i : Nat) (hi : i < input.length) (t : T) (hti : input[i]? = some t)
    (e : String) (he : (f t).2 = some e) :
    textContains (errText (Mapper.MapErr input f ord).2) e := by
  rw [MapErr_snd_eq]
  apply errText_contains
  apply List.mem_filterMap.mpr
  refine ⟨i, hperm.mem_iff.mpr (List.mem_range.mpr hi), ?_⟩
  rw [hti]
  simpa using he

theorem mapErr_text_contains_each_witness :
    ([2, 0, 1] : List Nat).Perm (List.range 3)
      ∧ ([1, 2, 3] : List Nat)[1]? = some 2
      ∧ textContains
          (errText (Mapper.MapErr ([1, 2, 3] : List Nat)
            (fun x => (x * 2, if x = 2 then some "boom" else none)) [2, 0, 1]).2)
          "boom" :=
  ⟨by decide, by decide,
   mapErr_text_contains_each [1, 2, 3]
     (fun x => (x * 2, if x = 2 then some "boom" else none)) [2, 0, 1] (by decide)
     1 (by decide) 2 (by decide) "boom" (by decide)⟩

/-- C8: Map with the identity transform is a round-trip: for every input
slice and every completion order, Map returns a sequence equal to the
input, element for element, preserving index order. -/
theorem map_identity_roundtrip [Inhabited T] (input : List T) (ord : List Nat)
    (hperm : ord.Perm (List.range input.length)) :
    Mapper.Map input id ord = input := by
  rw [Map_eq_map input id ord hperm, List.map_id]

theorem map_identity_roundtrip_witness :
    ([1, 0] : List Nat).Perm (List.range 2)
      ∧ Mapper.Map ([5, 6] : List Nat) id [1, 0] = [5, 6] :=
  ⟨by decide, map_identity_roundtrip [5, 6] [1, 0] (by decide)⟩

/-- C9: for every N units of work spawned on a WaitGroup, each incrementing
a shared counter and none of which faults, Wait returns normally and the
counter reaches exactly N after Wait returns. -/
theorem wait_normal_counter (units : List (Job Nat)) (n : Nat)
    (hu : units = List.replicate n incJob) :
    (WaitGroup.Wait units 0).1 = n
      ∧ (WaitGroup.Wait units 0).2 = WaitOutcome.normal := by
  subst hu
  obtain ⟨hp, hs⟩ := incJob_wave (List.replicate n incJob) 0
    (fun u hu => List.eq_of_mem_replicate hu)
  constructor
  · show (WaitGroup.runAll (List.replicate n incJob) 0 none).1 = n
    rw [runAll_fst, hs, List.length_replicate]
    omega
  · have h2 : (WaitGroup.runAll (List.replicate n incJob) 0 none).2 = none := by
      rw [runAll_slot_none, hp]
      rfl
    show (match (WaitGroup.runAll (List.replicate n incJob) 0 none).2 with
        | some p => WaitOutcome.panicked (capturedText p)
        | none => WaitOutcome.normal) = WaitOutcome.normal
    rw [h2]

theorem wait_normal_counter_witness :
    List.replicate 10 incJob = List.replicate 10 incJob
      ∧ ((WaitGroup.Wait (List.replicate 10 incJob) 0).1 = 10
          ∧ (WaitGroup.Wait (List.replicate 10 incJob) 0).2 = WaitOutcome.normal) :=
  ⟨rfl, wait_normal_counter (List.replicate 10 incJob) 10 rfl⟩

/-- C10: on an empty input slice, Map returns a slice of length 0 and
MapErr returns a slice of length 0 together with a nil error; neither ever
invokes the transform — on empty input the iterator leaves any state
untouched for every body, so no invocation is observable. -/
theorem map_empty_no_invocation [Inhabited R] [Inhabited R₂]
    (f : T → R) (g : T → R₂ × Option String) (ord : List Nat)
    (action : Nat → T → σ → σ) (init : σ) :
    Mapper.Map ([] : List T) f ord = []
      ∧ Mapper.MapErr ([] : List T) g ord = ([], [])
      ∧ ForEachIdx ([] : List T) ord action init = init := by
  refine ⟨?_, ?_, ForEachIdx_nil ord action init⟩
  · exact ForEachIdx_nil ord _ _
  · exact ForEachIdx_nil ord _ _
